import Mathlib

/-!
Verification of the catalog package of an iceberg table-format library.

The development shallowly embeds the Go source file `catalog/catalog.go`:

* Go `map[string]string` values (the `iceberg.Properties` type) become
  `GoStrMap`: `none` is the nil map, `some l` an allocated map whose
  association list `l` has pairwise distinct keys and whose iteration
  order is the list order.  Reads of a nil map yield the zero value,
  deletes on a nil map are no-ops, and writes to a nil map panic —
  exactly Go's semantics; the panic is modelled by `none` results.
* `table.Identifier` (a `[]string`) becomes `List String`.
* The reconciler `getUpdatedPropsAndUpdateSummary` and its helpers
  `checkForOverlap`, the removal loop and the update loop are translated
  line by line; the update loop returns `none` when the Go code would
  panic (assignment into a nil map).
* A small explicit heap (`Heap`, a list of map values addressed by
  index) is used to state the frame property of the reconciler: the
  source clones `currentProps` with `maps.Clone` and mutates only the
  clone, so the cell holding the caller's map is unchanged.
-/

namespace IcebergCatalog

/-! ## Association lists: the contents of an allocated Go map -/

/-- One key/value entry of a `map[string]string`. -/
abbrev Entry := String × String

/-- Lookup of a key in an association list (first matching entry). -/
def assocLookup : List Entry → String → Option String
  | [], _ => none
  | kv :: rest, k => if kv.1 = k then some kv.2 else assocLookup rest k

/-- The keys of an association list, in order. -/
def assocKeys (l : List Entry) : List String := l.map Prod.fst

/-- Replace the value of `k` in place, or append the entry at the end:
the effect of a Go map assignment on the entry list. -/
def setAssoc : List Entry → String → String → List Entry
  | [], k, v => [(k, v)]
  | kv :: rest, k, v => if kv.1 = k then (k, v) :: rest else kv :: setAssoc rest k v

/-! ## Go map values -/

/-- A Go `map[string]string` value: `none` is the nil map, `some l` an
allocated map with entry list `l`.  `iceberg.Properties` is this type. -/
abbrev GoStrMap := Option (List Entry)

/-- `m[k]` as an `Option`: `none` when the key is absent (or the map is nil). -/
def mapLookup (m : GoStrMap) (k : String) : Option String :=
  match m with
  | none => none
  | some l => assocLookup l k

/-- `m[k]` in value position: absent keys (and nil maps) read the zero value `""`. -/
def mapGet (m : GoStrMap) (k : String) : String :=
  (mapLookup m k).getD ""

/-- The `_, ok := m[k]` comma-ok form. -/
def mapContains (m : GoStrMap) (k : String) : Bool :=
  (mapLookup m k).isSome

/-- `delete(m, k)`: a no-op on nil maps and on absent keys. -/
def mapDelete (m : GoStrMap) (k : String) : GoStrMap :=
  match m with
  | none => none
  | some l => some (l.filter (fun kv => kv.1 ≠ k))

/-- `m[k] = v`: `none` models the Go panic "assignment to entry in nil map". -/
def mapSet (m : GoStrMap) (k v : String) : Option GoStrMap :=
  match m with
  | none => none
  | some l => some (some (setAssoc l k v))

/-- `maps.Clone`: a nil map clones to nil; in a pure model the copied
contents are the same value. -/
def mapClone (m : GoStrMap) : GoStrMap := m

/-- The entries produced by `for key, value := range m` (a nil map yields
no iterations); the embedding iterates them in list order. -/
def mapEntries (m : GoStrMap) : List Entry := m.getD []

/-- Well-formedness of a Go map value: the entry list has pairwise
distinct keys (true of every real Go map). -/
abbrev MapWF (m : GoStrMap) : Prop := (assocKeys (mapEntries m)).Nodup

/-! ## Identifier model (`table.Identifier` is `[]string`) -/

/-- `table.Identifier`, an ordered sequence of path segments. -/
abbrev Identifier := List String

/-- `TableNameFromIdent`: the last segment, or `""` for an empty identifier. -/
def TableNameFromIdent (ident : Identifier) : String :=
  if ident.length = 0 then "" else ident.getD (ident.length - 1) ""

/-- `NamespaceFromIdent` evaluates `ident[:len(ident)-1]`.  On an empty
identifier the Go slice bound is `-1` and the code panics; the panic is
modelled by `none`. -/
def NamespaceFromIdent (ident : Identifier) : Option Identifier :=
  if ident.length = 0 then none
  else some (ident.take (ident.length - 1))

/-! ## Connection options -/

/-- The `options` record accumulated by the connection option functions.
Fields of external SDK types (`aws.Config`, `*tls.Config`, `*url.URL`)
are out of the claims' scope and omitted; the REST path field named
after the path segment it prepends is rendered `restPathPfx`. -/
structure options where
  credential : String := ""
  oauthToken : String := ""
  warehouseLocation : String := ""
  metadataLocation : String := ""
  enableSigv4 : Bool := false
  sigv4Region : String := ""
  sigv4Service : String := ""
  restPathPfx : String := ""
deriving Repr, DecidableEq

/-- `WithCredential`. -/
def WithCredential (cred : String) : options → options :=
  fun o => { o with credential := cred }

/-- `WithOAuthToken`. -/
def WithOAuthToken (token : String) : options → options :=
  fun o => { o with oauthToken := token }

/-- `WithWarehouseLocation`. -/
def WithWarehouseLocation (loc : String) : options → options :=
  fun o => { o with warehouseLocation := loc }

/-- `WithMetadataLocation`. -/
def WithMetadataLocation (loc : String) : options → options :=
  fun o => { o with metadataLocation := loc }

/-- `WithSigV4`: enables signing with the default service name. -/
def WithSigV4 : options → options :=
  fun o => { o with enableSigv4 := true, sigv4Service := "execute-api" }

/-- `WithSigV4RegionSvc`: enables signing, sets the region, and sets the
service, defaulting to `"execute-api"` when the service is empty. -/
def WithSigV4RegionSvc (region service : String) : options → options :=
  fun o =>
    let o1 := { o with enableSigv4 := true, sigv4Region := region }
    if service = "" then { o1 with sigv4Service := "execute-api" }
    else { o1 with sigv4Service := service }

/-! ## Table-creation options -/

/-- `strings.TrimRight s cutset` for a one-character cutset: removes all
trailing occurrences of `c`. -/
def trimRight (s : String) (c : Char) : String :=
  String.mk ((s.data.reverse.dropWhile (fun ch => ch == c)).reverse)

/-- The `createTableCfg` record.  `partitionSpec` and `sortOrder` have
external types; they are modelled opaquely as optional unit values, which
preserves the zero-value/overwrite behaviour the claims mention. -/
structure createTableCfg where
  location : String := ""
  partitionSpec : Option Unit := none
  sortOrder : Option Unit := none
  properties : GoStrMap := none
deriving Repr, DecidableEq

/-- `WithLocation`: stores the location with trailing `'/'` stripped. -/
def WithLocation (location : String) : createTableCfg → createTableCfg :=
  fun cfg => { cfg with location := trimRight location '/' }

/-! ## The properties reconciler -/

/-- `PropertiesUpdateSummary`: the change summary returned by the reconciler. -/
structure PropertiesUpdateSummary where
  Removed : List String
  Updated : List String
  Missing : List String
deriving Repr, DecidableEq

/-- The Go formatting verb `%v` applied to a `[]string`. -/
def goFormatStrSlice (l : List String) : String :=
  "[" ++ String.intercalate " " l ++ "]"

/-- The conflict error message built by `checkForOverlap` via `fmt.Errorf`. -/
def conflictMessage (overlap : List String) : String :=
  "conflict between removals and updates for keys: " ++ goFormatStrSlice overlap

/-- `checkForOverlap`: collects every removal key that is also an update
key and, when the collection is nonempty, returns the conflict error. -/
def checkForOverlap (removals : List String) (updates : GoStrMap) : Option String :=
  let overlap := removals.filter (fun key => mapContains updates key)
  if overlap.length > 0 then some (conflictMessage overlap) else none

/-- The removal loop of `getUpdatedPropsAndUpdateSummary`: for each key of
`removals` in order, delete it from the working map and record it in
`removed` when present. -/
def removeLoop : GoStrMap → List String → List String → GoStrMap × List String
  | props, removed, [] => (props, removed)
  | props, removed, key :: rest =>
    if mapContains props key then
      removeLoop (mapDelete props key) (removed ++ [key]) rest
    else removeLoop props removed rest

/-- The update loop of `getUpdatedPropsAndUpdateSummary`: for each entry
`(key, value)` of the update map, when `updatedProps[key] != value` record
the key and assign; `none` models the Go panic of assigning into a nil
map. -/
def updateLoop : GoStrMap → List String → List Entry → Option (GoStrMap × List String)
  | props, updated, [] => some (props, updated)
  | props, updated, (k, v) :: rest =>
    if mapGet props k ≠ v then
      match mapSet props k v with
      | none => none
      | some props2 => updateLoop props2 (updated ++ [k]) rest
    else updateLoop props updated rest

/-- Modelled from the spec: `iceberg.Difference` is declared outside this
repository slice (only its call site is under `src/`); section 4.4 step 4
of the spec defines `Missing` as the set difference of the originally
requested removals against the keys recorded in `Removed`. -/
def Difference (a b : List String) : List String :=
  a.dedup.filter (fun x => x ∉ b)

/-- The reconciler's result: a conflict error, a panic (nil-map
assignment), or the updated properties with the change summary. -/
inductive ReconcileResult where
  | panicked
  | err (msg : String)
  | ok (props : GoStrMap) (summary : PropertiesUpdateSummary)
deriving Repr, DecidableEq

/-- `getUpdatedPropsAndUpdateSummary`: validate, clone the current
properties, apply removals then updates to the clone, and return it with
the summary. -/
def getUpdatedPropsAndUpdateSummary (currentProps : GoStrMap) (removals : List String)
    (updates : GoStrMap) : ReconcileResult :=
  match checkForOverlap removals updates with
  | some msg => .err msg
  | none =>
    let updatedProps := mapClone currentProps
    let st := removeLoop updatedProps [] removals
    match updateLoop st.1 [] (mapEntries updates) with
    | none => .panicked
    | some (props2, updated) =>
      .ok props2
        { Removed := st.2, Updated := updated, Missing := Difference removals st.2 }

/-! ## Lemmas about the map model -/

theorem assocLookup_setAssoc_self (l : List Entry) (k v : String) :
    assocLookup (setAssoc l k v) k = some v := by
  induction l with
  | nil => simp [setAssoc, assocLookup]
  | cons kv rest ih =>
    by_cases h : kv.1 = k
    · simp [setAssoc, h, assocLookup]
    · simp [setAssoc, h, assocLookup, ih]

theorem assocLookup_setAssoc_other (l : List Entry) (k v j : String) (hj : j ≠ k) :
    assocLookup (setAssoc l k v) j = assocLookup l j := by
  have hkj : ¬ k = j := fun h => hj h.symm
  induction l with
  | nil => simp [setAssoc, assocLookup, hkj]
  | cons kv rest ih =>
    by_cases h : kv.1 = k
    · rw [setAssoc, if_pos h]
      have hkvj : ¬ kv.1 = j := by rw [h]; exact hkj
      simp [assocLookup, hkj, hkvj]
    · rw [setAssoc, if_neg h]
      simp [assocLookup, ih]

theorem assocLookup_eq_none_iff (l : List Entry) (k : String) :
    assocLookup l k = none ↔ k ∉ assocKeys l := by
  induction l with
  | nil => simp [assocLookup, assocKeys]
  | cons kv rest ih =>
    by_cases h : kv.1 = k
    · simp [assocLookup, h, assocKeys]
    · have h' : ¬ k = kv.1 := fun hh => h hh.symm
      simp [assocLookup, h, assocKeys, ih, h']

theorem assocLookup_filter_ne (l : List Entry) (k j : String) :
    assocLookup (l.filter (fun kv => kv.1 ≠ k)) j =
      if j = k then none else assocLookup l j := by
  simp only [ne_eq, decide_not]
  induction l with
  | nil => simp [assocLookup]
  | cons kv rest ih =>
    by_cases hk : kv.1 = k
    · rw [List.filter_cons_of_neg (by simp [hk]), ih]
      by_cases hj : j = k
      · simp [hj]
      · have hkj : ¬ kv.1 = j := by rw [hk]; exact fun hh => hj hh.symm
        simp [assocLookup, hj, hkj]
    · rw [List.filter_cons_of_pos (by simp [hk])]
      by_cases hkj : kv.1 = j
      · have hj : ¬ j = k := by rw [← hkj]; exact hk
        simp [assocLookup, hkj, hj]
      · simp [assocLookup, hkj, ih]

theorem mapLookup_delete (p : GoStrMap) (k j : String) :
    mapLookup (mapDelete p k) j = if j = k then none else mapLookup p j := by
  cases p with
  | none => simp [mapDelete, mapLookup]
  | some l => simpa [mapDelete, mapLookup] using assocLookup_filter_ne l k j

theorem mapContains_delete (p : GoStrMap) (k j : String) :
    mapContains (mapDelete p k) j = if j = k then false else mapContains p j := by
  by_cases h : j = k <;> simp [mapContains, mapLookup_delete, h]

theorem mapDelete_ne_none (p : GoStrMap) (k : String) (h : p ≠ none) :
    mapDelete p k ≠ none := by
  cases p with
  | none => exact absurd rfl h
  | some l => simp [mapDelete]

theorem mapSet_eq_some (p q : GoStrMap) (k v : String) (h : mapSet p k v = some q) :
    ∃ l, p = some l ∧ q = some (setAssoc l k v) := by
  cases p with
  | none => simp [mapSet] at h
  | some l =>
    refine ⟨l, rfl, ?_⟩
    simpa [mapSet] using h.symm

theorem mapSet_lookup_self (p q : GoStrMap) (k v : String) (h : mapSet p k v = some q) :
    mapLookup q k = some v := by
  obtain ⟨l, -, rfl⟩ := mapSet_eq_some p q k v h
  simp [mapLookup, assocLookup_setAssoc_self]

theorem mapSet_lookup_other (p q : GoStrMap) (k v j : String) (h : mapSet p k v = some q)
    (hj : j ≠ k) : mapLookup q j = mapLookup p j := by
  obtain ⟨l, rfl, rfl⟩ := mapSet_eq_some p q k v h
  simp [mapLookup, assocLookup_setAssoc_other _ _ _ _ hj]

theorem mapContains_false_iff (p : GoStrMap) (k : String) :
    mapContains p k = false ↔ mapLookup p k = none := by
  unfold mapContains
  cases mapLookup p k <;> simp

theorem mapContains_true_iff (p : GoStrMap) (k : String) :
    mapContains p k = true ↔ ∃ v, mapLookup p k = some v := by
  unfold mapContains
  cases mapLookup p k <;> simp

theorem mapContains_iff_mem_keys (p : GoStrMap) (k : String) :
    mapContains p k = true ↔ k ∈ assocKeys (mapEntries p) := by
  cases p with
  | none => simp [mapContains, mapLookup, mapEntries, assocKeys]
  | some l =>
    induction l with
    | nil => simp [mapContains, mapLookup, assocLookup, mapEntries, assocKeys]
    | cons kv rest ih =>
      by_cases h : kv.1 = k
      · simp [mapContains, mapLookup, assocLookup, h, mapEntries, assocKeys]
      · have h' : ¬ k = kv.1 := fun hh => h hh.symm
        simpa [mapContains, mapLookup, assocLookup, h, mapEntries, assocKeys, h'] using ih

/-! ## Lemmas about the removal loop -/

theorem removeLoop_lookup (rs : List String) (p : GoStrMap) (acc : List String) (k : String) :
    mapLookup (removeLoop p acc rs).1 k = if k ∈ rs then none else mapLookup p k := by
  induction rs generalizing p acc with
  | nil => simp [removeLoop]
  | cons r rest ih =>
    by_cases hc : mapContains p r = true
    · rw [removeLoop, if_pos hc, ih]
      by_cases hk : k = r
      · subst hk
        by_cases hm : k ∈ rest <;> simp [hm, mapLookup_delete]
      · by_cases hm : k ∈ rest <;> simp [hm, hk, mapLookup_delete]
    · have hcf : mapContains p r = false := by
        cases hcc : mapContains p r
        · rfl
        · exact absurd hcc hc
      have hnone : mapLookup p r = none := (mapContains_false_iff p r).1 hcf
      rw [removeLoop, if_neg hc, ih]
      by_cases hk : k = r
      · subst hk
        by_cases hm : k ∈ rest <;> simp [hm, hnone]
      · by_cases hm : k ∈ rest <;> simp [hm, hk]

theorem removeLoop_mem (rs : List String) (p : GoStrMap) (acc : List String) (j : String) :
    j ∈ (removeLoop p acc rs).2 ↔ j ∈ acc ∨ (j ∈ rs ∧ mapContains p j = true) := by
  induction rs generalizing p acc with
  | nil => simp [removeLoop]
  | cons r rest ih =>
    by_cases hc : mapContains p r = true
    · rw [removeLoop, if_pos hc, ih]
      by_cases hj : j = r
      · subst hj
        simp [mapContains_delete, hc]
      · simp [mapContains_delete, hj, List.mem_cons]
    · rw [removeLoop, if_neg hc, ih]
      by_cases hj : j = r
      · subst hj
        constructor
        · rintro (h | ⟨hm, hcon⟩)
          · exact Or.inl h
          · exact absurd hcon hc
        · rintro (h | ⟨hm, hcon⟩)
          · exact Or.inl h
          · exact absurd hcon hc
      · simp [List.mem_cons, hj]

theorem removeLoop_noop (rs : List String) (p : GoStrMap) (acc : List String)
    (h : ∀ r ∈ rs, mapContains p r = false) : removeLoop p acc rs = (p, acc) := by
  induction rs generalizing acc with
  | nil => rfl
  | cons r rest ih =>
    have hr : mapContains p r = false := h r (List.mem_cons_self r rest)
    rw [removeLoop, if_neg (by simp [hr])]
    exact ih acc fun x hx => h x (List.mem_cons_of_mem _ hx)

theorem removeLoop_fst_ne_none (rs : List String) (p : GoStrMap) (acc : List String)
    (h : p ≠ none) : (removeLoop p acc rs).1 ≠ none := by
  induction rs generalizing p acc with
  | nil => simpa [removeLoop] using h
  | cons r rest ih =>
    by_cases hc : mapContains p r = true
    · rw [removeLoop, if_pos hc]
      exact ih _ _ (mapDelete_ne_none p r h)
    · rw [removeLoop, if_neg hc]
      exact ih _ _ h

/-! ## Lemmas about the update loop -/

theorem assocKeys_cons (kv : Entry) (rest : List Entry) :
    assocKeys (kv :: rest) = kv.1 :: assocKeys rest := rfl

theorem updateLoop_lookup_not_mem (us : List Entry) (p : GoStrMap) (acc : List String)
    (j : String) (hj : j ∉ assocKeys us) (p2 : GoStrMap) (upd : List String)
    (h : updateLoop p acc us = some (p2, upd)) : mapLookup p2 j = mapLookup p j := by
  induction us generalizing p acc with
  | nil =>
    rw [updateLoop] at h
    cases h
    rfl
  | cons kv0 rest ih =>
    obtain ⟨k0, v0⟩ := kv0
    rw [assocKeys_cons] at hj
    have hj1 : j ≠ k0 := fun hh => hj (by rw [hh]; exact List.mem_cons_self _ _)
    have hjr : j ∉ assocKeys rest := fun hh => hj (List.mem_cons_of_mem _ hh)
    by_cases hg : mapGet p k0 = v0
    · rw [updateLoop, if_neg (by simp [hg])] at h
      exact ih _ _ hjr h
    · rw [updateLoop, if_pos hg] at h
      cases hset : mapSet p k0 v0 with
      | none => rw [hset] at h; cases h
      | some q =>
        rw [hset] at h
        rw [ih _ _ hjr h]
        exact mapSet_lookup_other p q k0 v0 j hset hj1

theorem updateLoop_lookup_mem (us : List Entry) (p : GoStrMap) (acc : List String)
    (k v : String) (hnd : (assocKeys us).Nodup) (hkv : (k, v) ∈ us)
    (p2 : GoStrMap) (upd : List String) (h : updateLoop p acc us = some (p2, upd)) :
    mapLookup p2 k = if mapGet p k = v then mapLookup p k else some v := by
  induction us generalizing p acc with
  | nil => cases hkv
  | cons kv0 rest ih =>
    obtain ⟨k0, v0⟩ := kv0
    rw [assocKeys_cons, List.nodup_cons] at hnd
    rcases List.mem_cons.1 hkv with heq | hrest
    · have hk : k = k0 := congrArg Prod.fst heq
      have hv : v = v0 := congrArg Prod.snd heq
      subst hk
      subst hv
      by_cases hg : mapGet p k = v
      · rw [updateLoop, if_neg (by simp [hg])] at h
        rw [updateLoop_lookup_not_mem rest p _ k hnd.1 p2 upd h, if_pos hg]
      · rw [updateLoop, if_pos hg] at h
        cases hset : mapSet p k v with
        | none => rw [hset] at h; cases h
        | some q =>
          rw [hset] at h
          rw [updateLoop_lookup_not_mem rest q _ k hnd.1 p2 upd h, if_neg hg]
          exact mapSet_lookup_self p q k v hset
    · have hk0 : k ≠ k0 := by
        intro hh
        exact hnd.1 (hh ▸ (List.mem_map.2 ⟨(k, v), hrest, rfl⟩))
      by_cases hg : mapGet p k0 = v0
      · rw [updateLoop, if_neg (by simp [hg])] at h
        exact ih _ _ hnd.2 hrest h
      · rw [updateLoop, if_pos hg] at h
        cases hset : mapSet p k0 v0 with
        | none => rw [hset] at h; cases h
        | some q =>
          rw [hset] at h
          have hlq : mapLookup q k = mapLookup p k :=
            mapSet_lookup_other p q k0 v0 k hset hk0
          have hgq : mapGet q k = mapGet p k := by
            unfold mapGet
            rw [hlq]
          rw [ih _ _ hnd.2 hrest h, hgq, hlq]

theorem updateLoop_mem (us : List Entry) (p : GoStrMap) (acc : List String)
    (hnd : (assocKeys us).Nodup) (p2 : GoStrMap) (upd : List String)
    (h : updateLoop p acc us = some (p2, upd)) (j : String) :
    j ∈ upd ↔ j ∈ acc ∨ ∃ w, (j, w) ∈ us ∧ mapGet p j ≠ w := by
  induction us generalizing p acc with
  | nil =>
    rw [updateLoop] at h
    cases h
    simp
  | cons kv0 rest ih =>
    obtain ⟨k0, v0⟩ := kv0
    rw [assocKeys_cons, List.nodup_cons] at hnd
    by_cases hg : mapGet p k0 = v0
    · rw [updateLoop, if_neg (by simp [hg])] at h
      rw [ih _ _ hnd.2 h]
      constructor
      · rintro (h1 | ⟨w, hw, hne⟩)
        · exact Or.inl h1
        · exact Or.inr ⟨w, List.mem_cons_of_mem _ hw, hne⟩
      · rintro (h1 | ⟨w, hw, hne⟩)
        · exact Or.inl h1
        · rcases List.mem_cons.1 hw with he | hm'
          · have hj : j = k0 := congrArg Prod.fst he
            have hwv : w = v0 := congrArg Prod.snd he
            rw [hj, hwv] at hne
            exact absurd hg hne
          · exact Or.inr ⟨w, hm', hne⟩
    · rw [updateLoop, if_pos hg] at h
      cases hset : mapSet p k0 v0 with
      | none => rw [hset] at h; cases h
      | some q =>
        rw [hset] at h
        rw [ih _ _ hnd.2 h]
        by_cases hj : j = k0
        · subst hj
          constructor
          · intro _
            exact Or.inr ⟨v0, List.mem_cons_self _ _, hg⟩
          · intro _
            exact Or.inl (List.mem_append.2 (Or.inr (List.mem_singleton.2 rfl)))
        · have hgq : mapGet q j = mapGet p j := by
            unfold mapGet
            rw [mapSet_lookup_other p q k0 v0 j hset hj]
          rw [hgq]
          constructor
          · rintro (h1 | ⟨w, hw, hne⟩)
            · rcases List.mem_append.1 h1 with h1 | h1
              · exact Or.inl h1
              · exact absurd (List.mem_singleton.1 h1) hj
            · exact Or.inr ⟨w, List.mem_cons_of_mem _ hw, hne⟩
          · rintro (h1 | ⟨w, hw, hne⟩)
            · exact Or.inl (List.mem_append.2 (Or.inl h1))
            · rcases List.mem_cons.1 hw with he | hm'
              · exact absurd (congrArg Prod.fst he) hj
              · exact Or.inr ⟨w, hm', hne⟩

theorem updateLoop_noop (us : List Entry) (p : GoStrMap) (acc : List String)
    (h : ∀ kv ∈ us, mapGet p kv.1 = kv.2) : updateLoop p acc us = some (p, acc) := by
  induction us generalizing acc with
  | nil => rfl
  | cons kv0 rest ih =>
    obtain ⟨k0, v0⟩ := kv0
    have hg : mapGet p k0 = v0 := h (k0, v0) (List.mem_cons_self _ _)
    rw [updateLoop, if_neg (by simp [hg])]
    exact ih acc (fun kv hkv => h kv (List.mem_cons_of_mem _ hkv))

theorem updateLoop_isSome (us : List Entry) (p : GoStrMap) (acc : List String)
    (hp : p ≠ none) : ∃ p2 upd, updateLoop p acc us = some (p2, upd) ∧ p2 ≠ none := by
  induction us generalizing p acc with
  | nil => exact ⟨p, acc, rfl, hp⟩
  | cons kv0 rest ih =>
    obtain ⟨k0, v0⟩ := kv0
    by_cases hg : mapGet p k0 = v0
    · rw [updateLoop, if_neg (by simp [hg])]
      exact ih p acc hp
    · obtain ⟨l, rfl⟩ : ∃ l, p = some l := by
        cases p with
        | none => exact absurd rfl hp
        | some l => exact ⟨l, rfl⟩
      rw [updateLoop, if_pos hg]
      simp only [mapSet]
      exact ih _ _ (by simp)

theorem updateLoop_nil_panic (us : List Entry) (acc : List String)
    (h : ∃ kv ∈ us, kv.2 ≠ "") : updateLoop none acc us = none := by
  induction us generalizing acc with
  | nil => simp at h
  | cons kv0 rest ih =>
    obtain ⟨k0, v0⟩ := kv0
    by_cases hv : v0 = ""
    · subst hv
      rw [updateLoop, if_neg (by simp [mapGet, mapLookup])]
      apply ih
      rcases h with ⟨kv, hm, hne⟩
      rcases List.mem_cons.1 hm with he | hm'
      · rw [he] at hne
        simp at hne
      · exact ⟨kv, hm', hne⟩
    · have hcond : mapGet none k0 ≠ v0 := by
        intro hh
        exact hv (by rw [← hh]; rfl)
      rw [updateLoop, if_pos hcond]
      rfl

/-! ## Lemmas about the conflict check, `Difference` and the reconciler -/

theorem checkForOverlap_none_iff (removals : List String) (updates : GoStrMap) :
    checkForOverlap removals updates = none ↔
      ∀ k ∈ removals, mapContains updates k = false := by
  constructor
  · intro hn k hk
    cases hcc : mapContains updates k with
    | false => rfl
    | true =>
      have hmem : k ∈ removals.filter (fun key => mapContains updates key) :=
        List.mem_filter.2 ⟨hk, hcc⟩
      have hpos : (removals.filter (fun key => mapContains updates key)).length > 0 :=
        List.length_pos.2 (List.ne_nil_of_mem hmem)
      simp only [checkForOverlap] at hn
      rw [if_pos hpos] at hn
      cases hn
  · intro hall
    have hnil : removals.filter (fun key => mapContains updates key) = [] := by
      apply List.filter_eq_nil_iff.2
      intro a ha
      simp [hall a ha]
    simp only [checkForOverlap, hnil]
    rfl

theorem checkForOverlap_some (removals : List String) (updates : GoStrMap)
    (h : ∃ k ∈ removals, mapContains updates k = true) :
    checkForOverlap removals updates =
      some (conflictMessage (removals.filter (fun key => mapContains updates key))) := by
  rcases h with ⟨k, hk, hc⟩
  have hmem : k ∈ removals.filter (fun key => mapContains updates key) :=
    List.mem_filter.2 ⟨hk, hc⟩
  have hpos : (removals.filter (fun key => mapContains updates key)).length > 0 :=
    List.length_pos.2 (List.ne_nil_of_mem hmem)
  simp only [checkForOverlap]
  rw [if_pos hpos]

theorem Difference_mem (a b : List String) (j : String) :
    j ∈ Difference a b ↔ j ∈ a ∧ j ∉ b := by
  simp [Difference, List.mem_filter, List.mem_dedup]

theorem Difference_nil_right (a : List String) : Difference a [] = a.dedup := by
  unfold Difference
  apply List.filter_eq_self.2
  intro x hx
  simp

theorem reconcile_ok_inv (currentProps : GoStrMap) (removals : List String)
    (updates : GoStrMap) (props : GoStrMap) (summary : PropertiesUpdateSummary)
    (h : getUpdatedPropsAndUpdateSummary currentProps removals updates = .ok props summary) :
    checkForOverlap removals updates = none ∧
    summary.Removed = (removeLoop currentProps [] removals).2 ∧
    updateLoop (removeLoop currentProps [] removals).1 [] (mapEntries updates) =
      some (props, summary.Updated) ∧
    summary.Missing = Difference removals summary.Removed := by
  cases hov : checkForOverlap removals updates with
  | some msg =>
    simp only [getUpdatedPropsAndUpdateSummary, hov] at h
    exact ReconcileResult.noConfusion h
  | none =>
    simp only [getUpdatedPropsAndUpdateSummary, hov, mapClone] at h
    cases hul : updateLoop (removeLoop currentProps [] removals).1 [] (mapEntries updates) with
    | none =>
      rw [hul] at h
      cases h
    | some pr =>
      obtain ⟨p2, upd⟩ := pr
      rw [hul] at h
      cases h
      exact ⟨rfl, rfl, rfl, rfl⟩

theorem reconcile_ok_build (currentProps : GoStrMap) (removals : List String)
    (updates : GoStrMap) (p2 : GoStrMap) (upd : List String)
    (hov : checkForOverlap removals updates = none)
    (hul : updateLoop (removeLoop currentProps [] removals).1 [] (mapEntries updates) =
      some (p2, upd)) :
    getUpdatedPropsAndUpdateSummary currentProps removals updates =
      .ok p2 { Removed := (removeLoop currentProps [] removals).2, Updated := upd,
               Missing := Difference removals (removeLoop currentProps [] removals).2 } := by
  simp only [getUpdatedPropsAndUpdateSummary, hov, mapClone, hul]

theorem reconcile_panic_build (currentProps : GoStrMap) (removals : List String)
    (updates : GoStrMap)
    (hov : checkForOverlap removals updates = none)
    (hul : updateLoop (removeLoop currentProps [] removals).1 [] (mapEntries updates) = none) :
    getUpdatedPropsAndUpdateSummary currentProps removals updates = .panicked := by
  simp only [getUpdatedPropsAndUpdateSummary, hov, mapClone, hul]

theorem reconcile_err_build (currentProps : GoStrMap) (removals : List String)
    (updates : GoStrMap) (msg : String)
    (hov : checkForOverlap removals updates = some msg) :
    getUpdatedPropsAndUpdateSummary currentProps removals updates = .err msg := by
  simp only [getUpdatedPropsAndUpdateSummary, hov]

/-! ## Lemmas about `trimRight` -/

theorem head_dropWhile_false (p : Char → Bool) (l : List Char) (a : Char)
    (h : (l.dropWhile p).head? = some a) : p a = false := by
  induction l with
  | nil => cases h
  | cons x xs ih =>
    rw [List.dropWhile_cons] at h
    by_cases hx : p x
    · rw [if_pos hx] at h
      exact ih h
    · rw [if_neg hx] at h
      have hxa : x = a := by simpa using h
      subst hxa
      cases hcc : p x with
      | false => rfl
      | true => exact absurd hcc hx

theorem trimRight_getLast (s : String) (c a : Char)
    (h : (trimRight s c).data.getLast? = some a) : (a == c) = false := by
  unfold trimRight at h
  rw [List.getLast?_reverse] at h
  exact head_dropWhile_false (fun ch => ch == c) s.data.reverse a h

theorem trimRight_decomp (s : String) (c : Char) :
    ∃ n, s.data = (trimRight s c).data ++ List.replicate n c := by
  refine ⟨(s.data.reverse.takeWhile (fun ch => ch == c)).length, ?_⟩
  have hall : ∀ x ∈ s.data.reverse.takeWhile (fun ch => ch == c), x = c := by
    intro x hx
    simpa using List.mem_takeWhile_imp hx
  have hrep : s.data.reverse.takeWhile (fun ch => ch == c) =
      List.replicate (s.data.reverse.takeWhile (fun ch => ch == c)).length c :=
    List.eq_replicate_of_mem hall
  have h1 : s.data = (s.data.reverse.dropWhile (fun ch => ch == c)).reverse
      ++ (s.data.reverse.takeWhile (fun ch => ch == c)).reverse := by
    rw [← List.reverse_append, List.takeWhile_append_dropWhile, List.reverse_reverse]
  calc s.data
      = (s.data.reverse.dropWhile (fun ch => ch == c)).reverse
          ++ (s.data.reverse.takeWhile (fun ch => ch == c)).reverse := h1
    _ = (trimRight s c).data
          ++ (List.replicate (s.data.reverse.takeWhile (fun ch => ch == c)).length c).reverse := by
          rw [← hrep]; rfl
    _ = (trimRight s c).data
          ++ List.replicate (s.data.reverse.takeWhile (fun ch => ch == c)).length c := by
          rw [List.reverse_replicate]

/-! ## Identifier-model helper -/

theorem getD_last_append (ns : List String) (t : String) :
    (ns ++ [t]).getD ((ns ++ [t]).length - 1) "" = t := by
  induction ns with
  | nil => rfl
  | cons a rest ih =>
    rw [List.cons_append]
    have h1 : (a :: (rest ++ [t])).length - 1 = ((rest ++ [t]).length - 1) + 1 := by
      simp only [List.length_cons, List.length_append]
      omega
    rw [h1, List.getD_cons_succ]
    exact ih

/-! ## Claim theorems: identifier model and option records -/

/-- C6: for every identifier of length at least one, written `ns ++ [t]`,
`TableNameFromIdent` returns the last segment `t` and `NamespaceFromIdent`
returns all segments except the last — a sequence of length `len - 1`,
empty for a length-1 identifier — and `TableNameFromIdent` of the empty
identifier is the empty string (it never fails). -/
theorem tableName_and_namespace_from_ident :
    (∀ (ns : Identifier) (t : String),
      TableNameFromIdent (ns ++ [t]) = t ∧
      NamespaceFromIdent (ns ++ [t]) = some ns ∧
      ns.length = (ns ++ [t]).length - 1) ∧
    TableNameFromIdent [] = "" := by
  refine ⟨fun ns t => ⟨?_, ?_, by simp⟩, rfl⟩
  · unfold TableNameFromIdent
    rw [if_neg (by simp)]
    exact getD_last_append ns t
  · unfold NamespaceFromIdent
    rw [if_neg (by simp)]
    have h1 : (ns ++ [t]).length - 1 = ns.length := by simp
    rw [h1, List.take_left]

/-- C9: `NamespaceFromIdent` is not total at the public interface: on the
empty identifier the Go code slices `ident[:len(ident)-1]` with bound `-1`
and panics (modelled by `none`); under the precondition that the identifier
has length at least one it always produces a namespace. -/
theorem namespaceFromIdent_partiality :
    NamespaceFromIdent [] = none ∧
    ∀ ident : Identifier, ident.length ≥ 1 → (NamespaceFromIdent ident).isSome = true := by
  refine ⟨rfl, fun ident h => ?_⟩
  unfold NamespaceFromIdent
  rw [if_neg (by omega)]
  rfl

theorem namespaceFromIdent_partiality_witness :
    (NamespaceFromIdent ["db", "tbl"]).isSome = true :=
  namespaceFromIdent_partiality.2 ["db", "tbl"] (by decide)

/-- C7: applied to the zero-valued options record, `WithSigV4RegionSvc`
enables signing, sets the signing region to the given region, and sets the
signing service to the fixed default `"execute-api"` when the given service
is empty and to the given service otherwise; the no-argument `WithSigV4`
likewise enables signing with the fixed default service name. -/
theorem sigv4_option_spec :
    (∀ region service : String,
      (WithSigV4RegionSvc region service {}).enableSigv4 = true ∧
      (WithSigV4RegionSvc region service {}).sigv4Region = region ∧
      (WithSigV4RegionSvc region service {}).sigv4Service =
        (if service = "" then "execute-api" else service)) ∧
    (WithSigV4 {}).enableSigv4 = true ∧ (WithSigV4 {}).sigv4Service = "execute-api" := by
  refine ⟨fun region service => ?_, rfl, rfl⟩
  by_cases h : service = "" <;> simp [WithSigV4RegionSvc, h]

/-- C8: `WithLocation` stores the location with all trailing path
separators `'/'` stripped — the stored value never ends in `'/'` and the
given location is the stored value followed by a run of `'/'` — and a
repeated application of the option overwrites the previous value
(last-applied wins). -/
theorem withLocation_spec :
    (∀ (loc : String) (cfg : createTableCfg),
      (WithLocation loc cfg).location = trimRight loc '/' ∧
      (∀ c, (WithLocation loc cfg).location.data.getLast? = some c → c ≠ '/') ∧
      (∃ n, loc.data = (WithLocation loc cfg).location.data ++ List.replicate n '/')) ∧
    (∀ (l1 l2 : String) (cfg : createTableCfg),
      WithLocation l2 (WithLocation l1 cfg) = WithLocation l2 cfg) := by
  refine ⟨fun loc cfg => ⟨rfl, fun c hc => ?_, ?_⟩, fun l1 l2 cfg => rfl⟩
  · have := trimRight_getLast loc '/' c hc
    simpa using this
  · exact trimRight_decomp loc '/'

theorem withLocation_spec_witness :
    (WithLocation "ab//" {}).location = trimRight "ab//" '/' ∧ ('b' : Char) ≠ '/' :=
  ⟨(withLocation_spec.1 "ab//" {}).1,
   (withLocation_spec.1 "ab//" {}).2.1 'b' (by decide)⟩

/-! ## Further association-list lemmas for the reconciler claims -/

theorem assocLookup_isSome_of_mem (l : List Entry) (k v : String) (h : (k, v) ∈ l) :
    (assocLookup l k).isSome = true := by
  induction l with
  | nil => cases h
  | cons kv rest ih =>
    by_cases hk : kv.1 = k
    · simp [assocLookup, hk]
    · rcases List.mem_cons.1 h with he | hm
      · exact absurd (congrArg Prod.fst he).symm hk
      · simp [assocLookup, hk, ih hm]

theorem assoc_mem_unique (l : List Entry) (hnd : (assocKeys l).Nodup) (k v w : String)
    (h1 : (k, v) ∈ l) (h2 : (k, w) ∈ l) : v = w := by
  induction l with
  | nil => cases h1
  | cons kv rest ih =>
    rw [assocKeys_cons, List.nodup_cons] at hnd
    rcases List.mem_cons.1 h1 with he1 | hm1 <;> rcases List.mem_cons.1 h2 with he2 | hm2
    · exact congrArg Prod.snd (he1.trans he2.symm)
    · have hk1 : kv.1 = k := (congrArg Prod.fst he1).symm
      have hmem : k ∈ assocKeys rest := List.mem_map.2 ⟨(k, w), hm2, rfl⟩
      rw [hk1] at hnd
      exact absurd hmem hnd.1
    · have hk1 : kv.1 = k := (congrArg Prod.fst he2).symm
      have hmem : k ∈ assocKeys rest := List.mem_map.2 ⟨(k, v), hm1, rfl⟩
      rw [hk1] at hnd
      exact absurd hmem hnd.1
    · exact ih hnd.2 hm1 hm2

/-! ## Claim theorems: the properties reconciler -/

/-- C1 counterexample: with an allocated empty current map, no removals and
the single update entry `("k", "")` — the key absent and the value the
empty string — the claim demands that `"k"` be set in the returned map and
recorded in `Updated`, but the code reads the absent key as `""`, sees no
difference, records nothing, and returns the map still without the key. -/
theorem update_application_counterexample :
    getUpdatedPropsAndUpdateSummary (some []) [] (some [("k", "")]) =
      .ok (some []) { Removed := [], Updated := [], Missing := [] } ∧
    mapContains (some []) "k" = false :=
  ⟨rfl, rfl⟩

/-- C1 amended: for a successful reconciliation with a well-formed update
map and an update entry `(k, v)`: the returned map holds `v` at `k`; the
key is recorded in `Updated` exactly when the current value of `k` — an
absent key reading as the empty string, as a Go map read does — differs
from `v`; and when it is identical (in particular when `v` is the empty
string and the key is absent) the key is not recorded and the map entry of
`k` is unchanged. -/
theorem update_application_amended (current : GoStrMap) (removals : List String)
    (updates : GoStrMap) (hwf : MapWF updates) (k v : String)
    (hkv : (k, v) ∈ mapEntries updates) (props : GoStrMap)
    (summary : PropertiesUpdateSummary)
    (hok : getUpdatedPropsAndUpdateSummary current removals updates = .ok props summary) :
    mapGet props k = v ∧
    (k ∈ summary.Updated ↔ mapGet current k ≠ v) ∧
    (mapGet current k = v → k ∉ summary.Updated ∧ mapLookup props k = mapLookup current k) := by
  obtain ⟨hov, hrm, hul, hmiss⟩ := reconcile_ok_inv current removals updates props summary hok
  have hnoov := (checkForOverlap_none_iff removals updates).1 hov
  have hkr : k ∉ removals := by
    intro hkr
    have hcf := hnoov k hkr
    have hct : mapContains updates k = true := by
      cases updates with
      | none => cases hkv
      | some l => exact assocLookup_isSome_of_mem l k v hkv
    simp [hct] at hcf
  have hpre : mapLookup (removeLoop current [] removals).1 k = mapLookup current k := by
    rw [removeLoop_lookup removals current [] k, if_neg hkr]
  have hgpre : mapGet (removeLoop current [] removals).1 k = mapGet current k := by
    unfold mapGet
    rw [hpre]
  have hlmem := updateLoop_lookup_mem (mapEntries updates) (removeLoop current [] removals).1 []
    k v hwf hkv props summary.Updated hul
  have hmem := updateLoop_mem (mapEntries updates) (removeLoop current [] removals).1 []
    hwf props summary.Updated hul k
  refine ⟨?_, ?_, ?_⟩
  · by_cases hg : mapGet current k = v
    · rw [if_pos (by rw [hgpre]; exact hg)] at hlmem
      unfold mapGet
      rw [hlmem, hpre]
      exact hg
    · rw [if_neg (by rw [hgpre]; exact hg)] at hlmem
      unfold mapGet
      rw [hlmem]
      rfl
  · rw [hmem]
    constructor
    · rintro (h0 | ⟨w, hw, hne⟩)
      · exact absurd h0 (List.not_mem_nil k)
      · have hwv : w = v := assoc_mem_unique (mapEntries updates) hwf k w v hw hkv
        rw [hgpre, hwv] at hne
        exact hne
    · intro hne
      exact Or.inr ⟨v, hkv, by rw [hgpre]; exact hne⟩
  · intro hg
    have hnupd : k ∉ summary.Updated := by
      rw [hmem]
      rintro (h0 | ⟨w, hw, hne⟩)
      · exact absurd h0 (List.not_mem_nil k)
      · have hwv : w = v := assoc_mem_unique (mapEntries updates) hwf k w v hw hkv
        rw [hgpre, hwv] at hne
        exact hne hg
    refine ⟨hnupd, ?_⟩
    rw [if_pos (by rw [hgpre]; exact hg)] at hlmem
    rw [hlmem, hpre]

theorem update_application_amended_witness :
    mapGet (some [("a", "1"), ("d", "4")]) "d" = "4" :=
  (update_application_amended (some [("a", "1"), ("b", "2")]) ["b", "c"]
    (some [("a", "1"), ("d", "4")]) (by decide) "d" "4" (by decide)
    (some [("a", "1"), ("d", "4")])
    { Removed := ["b"], Updated := ["d"], Missing := ["c"] } (by rfl)).1

/-- C2: when some key occurs both in the removal list and among the update
map's keys, the reconciler returns the conflict error built from the list
of all overlapping keys — the message names every such key, not only the
first — and no updated property map is produced; when no key overlaps, no
conflict error is ever returned. -/
theorem conflict_detection (current : GoStrMap) (removals : List String)
    (updates : GoStrMap) :
    (∀ k, (k ∈ removals ∧ mapContains updates k = true) ↔
      k ∈ removals.filter (fun key => mapContains updates key)) ∧
    ((∃ k ∈ removals, mapContains updates k = true) →
      getUpdatedPropsAndUpdateSummary current removals updates =
        .err (conflictMessage (removals.filter (fun key => mapContains updates key)))) ∧
    ((∀ k ∈ removals, mapContains updates k = false) →
      ∀ msg, getUpdatedPropsAndUpdateSummary current removals updates ≠ .err msg) := by
  refine ⟨fun k => ?_, fun h => ?_, fun h msg => ?_⟩
  · constructor
    · intro hh
      exact List.mem_filter.2 ⟨hh.1, hh.2⟩
    · intro hm
      exact ⟨(List.mem_filter.1 hm).1, (List.mem_filter.1 hm).2⟩
  · exact reconcile_err_build _ _ _ _ (checkForOverlap_some removals updates h)
  · have hov : checkForOverlap removals updates = none :=
      (checkForOverlap_none_iff _ _).2 h
    intro hc
    cases hul : updateLoop (removeLoop current [] removals).1 [] (mapEntries updates) with
    | none =>
      rw [reconcile_panic_build current removals updates hov hul] at hc
      cases hc
    | some pr =>
      obtain ⟨p2, upd⟩ := pr
      rw [reconcile_ok_build current removals updates p2 upd hov hul] at hc
      cases hc

theorem conflict_detection_witness :
    getUpdatedPropsAndUpdateSummary (some [("a", "1")]) ["a"] (some [("a", "2")]) =
      .err (conflictMessage (["a"].filter
        (fun key => mapContains (some [("a", "2")]) key))) :=
  (conflict_detection (some [("a", "1")]) ["a"] (some [("a", "2")])).2.1
    ⟨"a", by decide, by decide⟩

/-- C3: for a successful reconciliation, `Removed` holds exactly the
requested removal keys that were present in the current map, `Missing`
holds exactly the requested removals not recorded in `Removed`, the two
share no element, and every requested removal key lands in exactly one of
the two lists. -/
theorem removal_summary_partition (current : GoStrMap) (removals : List String)
    (updates : GoStrMap) (props : GoStrMap) (summary : PropertiesUpdateSummary)
    (hok : getUpdatedPropsAndUpdateSummary current removals updates = .ok props summary) :
    (∀ k, k ∈ summary.Removed ↔ (k ∈ removals ∧ mapContains current k = true)) ∧
    (∀ k, k ∈ summary.Missing ↔ (k ∈ removals ∧ k ∉ summary.Removed)) ∧
    (∀ k, k ∈ summary.Removed → k ∉ summary.Missing) ∧
    (∀ k, k ∈ removals →
      (k ∈ summary.Removed ∧ k ∉ summary.Missing) ∨
      (k ∈ summary.Missing ∧ k ∉ summary.Removed)) := by
  obtain ⟨hov, hrm, hul, hmiss⟩ := reconcile_ok_inv current removals updates props summary hok
  have hremiff : ∀ k, k ∈ summary.Removed ↔ (k ∈ removals ∧ mapContains current k = true) := by
    intro k
    rw [hrm]
    simpa using removeLoop_mem removals current [] k
  have hmissiff : ∀ k, k ∈ summary.Missing ↔ (k ∈ removals ∧ k ∉ summary.Removed) := by
    intro k
    rw [hmiss]
    exact Difference_mem removals summary.Removed k
  refine ⟨hremiff, hmissiff, fun k hk hmk => ?_, fun k hk => ?_⟩
  · exact ((hmissiff k).1 hmk).2 hk
  · by_cases hr : k ∈ summary.Removed
    · exact Or.inl ⟨hr, fun hmk => ((hmissiff k).1 hmk).2 hr⟩
    · exact Or.inr ⟨(hmissiff k).2 ⟨hk, hr⟩, hr⟩

theorem removal_summary_partition_witness :
    "b" ∈ (PropertiesUpdateSummary.mk ["b"] ["d"] ["c"]).Removed ↔
      ("b" ∈ ["b", "c"] ∧ mapContains (some [("a", "1"), ("b", "2")]) "b" = true) :=
  (removal_summary_partition (some [("a", "1"), ("b", "2")]) ["b", "c"]
    (some [("a", "1"), ("d", "4")]) (some [("a", "1"), ("d", "4")])
    (PropertiesUpdateSummary.mk ["b"] ["d"] ["c"]) (by rfl)).1 "b"

/-- C4: the reconciler is idempotent — reapplying the same removals and
updates to a successful result's property map succeeds, returns the same
map unchanged, and reports `Removed` and `Updated` empty with `Missing`
the duplicate-free removal request. -/
theorem reconcile_idempotent (current : GoStrMap) (removals : List String)
    (updates : GoStrMap) (hwf : MapWF updates) (props : GoStrMap)
    (summary : PropertiesUpdateSummary)
    (hok : getUpdatedPropsAndUpdateSummary current removals updates = .ok props summary) :
    getUpdatedPropsAndUpdateSummary props removals updates =
      .ok props { Removed := [], Updated := [], Missing := removals.dedup } := by
  obtain ⟨hov, hrm, hul, hmiss⟩ := reconcile_ok_inv current removals updates props summary hok
  have hnoov := (checkForOverlap_none_iff removals updates).1 hov
  have habs : ∀ r ∈ removals, mapContains props r = false := by
    intro r hr
    have hkeys : r ∉ assocKeys (mapEntries updates) := by
      intro hk
      have hct := (mapContains_iff_mem_keys updates r).2 hk
      rw [hnoov r hr] at hct
      cases hct
    have hpres : mapLookup props r = mapLookup (removeLoop current [] removals).1 r :=
      updateLoop_lookup_not_mem (mapEntries updates) _ [] r hkeys props summary.Updated hul
    have hafter : mapLookup (removeLoop current [] removals).1 r = none := by
      rw [removeLoop_lookup removals current [] r, if_pos hr]
    rw [mapContains_false_iff, hpres, hafter]
  have hrl2 : removeLoop props [] removals = (props, []) :=
    removeLoop_noop removals props [] habs
  have hpost : ∀ kv ∈ mapEntries updates, mapGet props kv.1 = kv.2 := by
    intro kv hkv
    obtain ⟨k, v⟩ := kv
    have hl := updateLoop_lookup_mem (mapEntries updates) (removeLoop current [] removals).1 []
      k v hwf hkv props summary.Updated hul
    by_cases hg : mapGet (removeLoop current [] removals).1 k = v
    · rw [if_pos hg] at hl
      unfold mapGet
      rw [hl]
      exact hg
    · rw [if_neg hg] at hl
      unfold mapGet
      rw [hl]
      rfl
  have hul2 : updateLoop props [] (mapEntries updates) = some (props, []) :=
    updateLoop_noop (mapEntries updates) props [] hpost
  have hbuild := reconcile_ok_build props removals updates props [] hov
    (by rw [hrl2]; exact hul2)
  have h2 : (removeLoop props [] removals).2 = [] := by rw [hrl2]
  rw [hbuild, h2, Difference_nil_right]

theorem reconcile_idempotent_witness :
    getUpdatedPropsAndUpdateSummary (some [("a", "1"), ("d", "4")]) ["b", "c"]
      (some [("a", "1"), ("d", "4")]) =
    .ok (some [("a", "1"), ("d", "4")])
      { Removed := [], Updated := [], Missing := (["b", "c"] : List String).dedup } :=
  reconcile_idempotent (some [("a", "1"), ("b", "2")]) ["b", "c"]
    (some [("a", "1"), ("d", "4")]) (by decide) (some [("a", "1"), ("d", "4")])
    { Removed := ["b"], Updated := ["d"], Missing := ["c"] } (by rfl)

/-- C10: under a conflict-free request, a nil current properties map makes
the reconciler panic as soon as the update map holds any key with a
non-empty value (`maps.Clone` of nil is nil and the assignment into the nil
clone panics), while every non-nil — possibly empty — current map makes the
same call return successfully. -/
theorem nil_current_panics (removals : List String) (updates : GoStrMap)
    (hov : checkForOverlap removals updates = none) :
    ((∃ kv ∈ mapEntries updates, kv.2 ≠ "") →
      getUpdatedPropsAndUpdateSummary none removals updates = .panicked) ∧
    (∀ current : GoStrMap, current ≠ none →
      ∃ props summary,
        getUpdatedPropsAndUpdateSummary current removals updates = .ok props summary) := by
  constructor
  · intro hex
    have hrl : removeLoop none [] removals = (none, []) :=
      removeLoop_noop removals none [] (fun r _ => rfl)
    apply reconcile_panic_build none removals updates hov
    rw [hrl]
    exact updateLoop_nil_panic (mapEntries updates) [] hex
  · intro current hcur
    have h1 : (removeLoop current [] removals).1 ≠ none :=
      removeLoop_fst_ne_none removals current [] hcur
    obtain ⟨p2, upd, hul, -⟩ := updateLoop_isSome (mapEntries updates) _ [] h1
    exact ⟨p2, _, reconcile_ok_build current removals updates p2 upd hov hul⟩

theorem nil_current_panics_witness :
    getUpdatedPropsAndUpdateSummary none [] (some [("k", "x")]) = .panicked :=
  (nil_current_panics [] (some [("k", "x")]) (by rfl)).1
    ⟨("k", "x"), by decide, by decide⟩

/-! ## Heap model: the frame property of the reconciler -/

/-- A heap of Go map objects addressed by index; reading an out-of-range
reference yields the nil map. -/
abbrev Heap := List GoStrMap

/-- Dereference a map object. -/
def heapRead (h : Heap) (r : Nat) : GoStrMap := h.getD r none

/-- Overwrite a map object in place. -/
def heapWrite (h : Heap) (r : Nat) (v : GoStrMap) : Heap := h.set r v

/-- The reconciler's outcome in the heap model: success returns the
reference of the freshly allocated clone. -/
inductive HeapOutcome where
  | panicked
  | err (msg : String)
  | ok (r : Nat) (summary : PropertiesUpdateSummary)
deriving Repr, DecidableEq

/-- The removal loop acting on the heap cell `upr` that holds the clone. -/
def removeLoopH : Heap → Nat → List String → List String → Heap × List String
  | h, _, removed, [] => (h, removed)
  | h, upr, removed, key :: rest =>
    if mapContains (heapRead h upr) key then
      removeLoopH (heapWrite h upr (mapDelete (heapRead h upr) key)) upr
        (removed ++ [key]) rest
    else removeLoopH h upr removed rest

/-- The update loop acting on the heap cell `upr`; at the Go panic
(assignment into a nil map) the accumulator becomes `none` and the heap is
kept as it was at the panic point. -/
def updateLoopH : Heap → Nat → List String → List Entry → Heap × Option (List String)
  | h, _, updated, [] => (h, some updated)
  | h, upr, updated, (k, v) :: rest =>
    if mapGet (heapRead h upr) k ≠ v then
      match mapSet (heapRead h upr) k v with
      | none => (h, none)
      | some m => updateLoopH (heapWrite h upr m) upr (updated ++ [k]) rest
    else updateLoopH h upr updated rest

/-- `getUpdatedPropsAndUpdateSummary` in the heap model: the caller's map
lives in cell `cur`; `maps.Clone` allocates a fresh cell for the working
copy and both loops mutate only that cell. -/
def getUpdatedPropsH (h : Heap) (cur : Nat) (removals : List String)
    (updates : GoStrMap) : Heap × HeapOutcome :=
  match checkForOverlap removals updates with
  | some msg => (h, .err msg)
  | none =>
    let h1 := h ++ [mapClone (heapRead h cur)]
    let upr := h.length
    let st := removeLoopH h1 upr [] removals
    match updateLoopH st.1 upr [] (mapEntries updates) with
    | (h3, none) => (h3, .panicked)
    | (h3, some updated) =>
      (h3, .ok upr { Removed := st.2, Updated := updated,
                     Missing := Difference removals st.2 })

/-! ## Heap lemmas -/

theorem heapWrite_length (h : Heap) (r : Nat) (v : GoStrMap) :
    (heapWrite h r v).length = h.length :=
  List.length_set h r v

theorem heapRead_write_self (h : Heap) (r : Nat) (v : GoStrMap) (hlt : r < h.length) :
    heapRead (heapWrite h r v) r = v := by
  induction h generalizing r with
  | nil => exact absurd hlt (Nat.not_lt_zero r)
  | cons a t ih =>
    cases r with
    | zero => rfl
    | succ n => exact ih n (Nat.lt_of_succ_lt_succ hlt)

theorem heapRead_write_other (h : Heap) (r s : Nat) (v : GoStrMap) (hne : s ≠ r) :
    heapRead (heapWrite h r v) s = heapRead h s := by
  induction h generalizing r s with
  | nil => rfl
  | cons a t ih =>
    cases r with
    | zero =>
      cases s with
      | zero => exact absurd rfl hne
      | succ m => rfl
    | succ n =>
      cases s with
      | zero => rfl
      | succ m => exact ih n m (fun hh => hne (by rw [hh]))

theorem heapRead_append (h : Heap) (v : GoStrMap) (r : Nat) (hlt : r < h.length) :
    heapRead (h ++ [v]) r = heapRead h r := by
  induction h generalizing r with
  | nil => exact absurd hlt (Nat.not_lt_zero r)
  | cons a t ih =>
    cases r with
    | zero => rfl
    | succ n => exact ih n (Nat.lt_of_succ_lt_succ hlt)

theorem heapRead_append_self (h : Heap) (v : GoStrMap) :
    heapRead (h ++ [v]) h.length = v := by
  induction h with
  | nil => rfl
  | cons a t ih => exact ih

/-! ## Simulation of the heap loops by the pure loops -/

theorem removeLoopH_sim (rs : List String) (h : Heap) (upr : Nat) (acc : List String)
    (hlt : upr < h.length) :
    (removeLoopH h upr acc rs).1.length = h.length ∧
    (∀ r, r ≠ upr → heapRead (removeLoopH h upr acc rs).1 r = heapRead h r) ∧
    heapRead (removeLoopH h upr acc rs).1 upr = (removeLoop (heapRead h upr) acc rs).1 ∧
    (removeLoopH h upr acc rs).2 = (removeLoop (heapRead h upr) acc rs).2 := by
  induction rs generalizing h acc with
  | nil => exact ⟨rfl, fun r _ => rfl, rfl, rfl⟩
  | cons key rest ih =>
    by_cases hc : mapContains (heapRead h upr) key = true
    · rw [removeLoopH, if_pos hc, removeLoop, if_pos hc]
      have hlen : (heapWrite h upr (mapDelete (heapRead h upr) key)).length = h.length :=
        heapWrite_length h upr _
      have hlt2 : upr < (heapWrite h upr (mapDelete (heapRead h upr) key)).length := by
        rw [hlen]
        exact hlt
      obtain ⟨l1, l2, l3, l4⟩ :=
        ih (heapWrite h upr (mapDelete (heapRead h upr) key)) (acc ++ [key]) hlt2
      refine ⟨by rw [l1, hlen], fun r hr => ?_, ?_, ?_⟩
      · rw [l2 r hr, heapRead_write_other h upr r _ hr]
      · rw [l3, heapRead_write_self h upr _ hlt]
      · rw [l4, heapRead_write_self h upr _ hlt]
    · rw [removeLoopH, if_neg hc, removeLoop, if_neg hc]
      exact ih h acc hlt

theorem updateLoopH_sim (us : List Entry) (h : Heap) (upr : Nat) (acc : List String)
    (hlt : upr < h.length) :
    (updateLoopH h upr acc us).1.length = h.length ∧
    (∀ r, r ≠ upr → heapRead (updateLoopH h upr acc us).1 r = heapRead h r) ∧
    (updateLoop (heapRead h upr) acc us = none → (updateLoopH h upr acc us).2 = none) ∧
    (∀ p2 upd, updateLoop (heapRead h upr) acc us = some (p2, upd) →
      (updateLoopH h upr acc us).2 = some upd ∧
      heapRead (updateLoopH h upr acc us).1 upr = p2) := by
  induction us generalizing h acc with
  | nil =>
    refine ⟨rfl, fun r _ => rfl, fun hn => ?_, fun p2 upd hs => ?_⟩
    · rw [updateLoop] at hn
      cases hn
    · rw [updateLoop] at hs
      cases hs
      exact ⟨rfl, rfl⟩
  | cons kv rest ih =>
    obtain ⟨k, v⟩ := kv
    by_cases hg : mapGet (heapRead h upr) k = v
    · rw [updateLoopH, if_neg (by simp [hg])]
      obtain ⟨l1, l2, l3, l4⟩ := ih h acc hlt
      refine ⟨l1, l2, fun hn => ?_, fun p2 upd hs => ?_⟩
      · rw [updateLoop, if_neg (by simp [hg])] at hn
        exact l3 hn
      · rw [updateLoop, if_neg (by simp [hg])] at hs
        exact l4 p2 upd hs
    · cases hset : mapSet (heapRead h upr) k v with
      | none =>
        rw [updateLoopH, if_pos hg, hset]
        refine ⟨rfl, fun r _ => rfl, fun _ => rfl, fun p2 upd hs => ?_⟩
        rw [updateLoop, if_pos hg, hset] at hs
        exact Option.noConfusion hs
      | some m =>
        rw [updateLoopH, if_pos hg, hset]
        have hlen : (heapWrite h upr m).length = h.length := heapWrite_length h upr m
        have hlt2 : upr < (heapWrite h upr m).length := by
          rw [hlen]
          exact hlt
        have hread : heapRead (heapWrite h upr m) upr = m :=
          heapRead_write_self h upr m hlt
        obtain ⟨l1, l2, l3, l4⟩ := ih (heapWrite h upr m) (acc ++ [k]) hlt2
        rw [hread] at l3 l4
        refine ⟨by rw [l1, hlen], fun r hr => ?_, fun hn => ?_, fun p2 upd hs => ?_⟩
        · rw [l2 r hr, heapRead_write_other h upr r m hr]
        · rw [updateLoop, if_pos hg, hset] at hn
          exact l3 hn
        · rw [updateLoop, if_pos hg, hset] at hs
          exact l4 p2 upd hs

/-- C5: the reconciler never mutates its `currentProps` argument.  In the
heap model the cell holding the caller's map reads the same after the call
for every outcome (conflict, panic or success), and on success the
returned map lives in a freshly allocated cell distinct from the caller's
whose contents are exactly the pure reconciler's returned map — every
removal and update was applied to the clone. -/
theorem reconciler_frame (h : Heap) (cur : Nat) (removals : List String)
    (updates : GoStrMap) (hlt : cur < h.length) :
    heapRead (getUpdatedPropsH h cur removals updates).1 cur = heapRead h cur ∧
    (∀ r summary, (getUpdatedPropsH h cur removals updates).2 = .ok r summary →
      r ≠ cur ∧
      getUpdatedPropsAndUpdateSummary (heapRead h cur) removals updates =
        .ok (heapRead (getUpdatedPropsH h cur removals updates).1 r) summary) := by
  cases hov : checkForOverlap removals updates with
  | some msg =>
    refine ⟨by simp only [getUpdatedPropsH, hov], fun r summary hr => ?_⟩
    simp only [getUpdatedPropsH, hov] at hr
    cases hr
  | none =>
    have hcurne : cur ≠ h.length := Nat.ne_of_lt hlt
    have hlt1 : h.length < (h ++ [mapClone (heapRead h cur)]).length := by
      rw [List.length_append]
      simp
    obtain ⟨r1, r2, r3, r4⟩ :=
      removeLoopH_sim removals (h ++ [mapClone (heapRead h cur)]) h.length [] hlt1
    have hreads : heapRead (h ++ [mapClone (heapRead h cur)]) h.length =
        heapRead h cur := heapRead_append_self h _
    rw [hreads] at r3 r4
    have hlt2 : h.length <
        (removeLoopH (h ++ [mapClone (heapRead h cur)]) h.length [] removals).1.length := by
      rw [r1]
      exact hlt1
    obtain ⟨u1, u2, u3, u4⟩ :=
      updateLoopH_sim (mapEntries updates)
        (removeLoopH (h ++ [mapClone (heapRead h cur)]) h.length [] removals).1
        h.length [] hlt2
    rw [r3] at u3 u4
    cases hU : updateLoopH
        (removeLoopH (h ++ [mapClone (heapRead h cur)]) h.length [] removals).1
        h.length [] (mapEntries updates) with
    | mk h3 o =>
      simp only [hU] at u1 u2 u3 u4
      cases o with
      | none =>
        have hres : getUpdatedPropsH h cur removals updates = (h3, HeapOutcome.panicked) := by
          simp only [getUpdatedPropsH, hov, hU]
        rw [hres]
        refine ⟨?_, fun r summary hr => ?_⟩
        · rw [u2 cur hcurne, r2 cur hcurne,
            heapRead_append h (mapClone (heapRead h cur)) cur hlt]
        · cases hr
      | some updated =>
        have hres : getUpdatedPropsH h cur removals updates =
            (h3, HeapOutcome.ok h.length
              { Removed :=
                  (removeLoopH (h ++ [mapClone (heapRead h cur)]) h.length [] removals).2,
                Updated := updated,
                Missing := Difference removals
                  (removeLoopH (h ++ [mapClone (heapRead h cur)]) h.length [] removals).2 }) := by
          simp only [getUpdatedPropsH, hov, hU]
        rw [hres]
        refine ⟨?_, fun r summary hr => ?_⟩
        · rw [u2 cur hcurne, r2 cur hcurne,
            heapRead_append h (mapClone (heapRead h cur)) cur hlt]
        · cases hr
          refine ⟨fun hh => hcurne hh.symm, ?_⟩
          cases hul : updateLoop (removeLoop (heapRead h cur) [] removals).1 []
              (mapEntries updates) with
          | none => exact Option.noConfusion (u3 hul)
          | some pr =>
            obtain ⟨p2, upd⟩ := pr
            obtain ⟨ho, hp⟩ := u4 p2 upd hul
            cases ho
            rw [reconcile_ok_build (heapRead h cur) removals updates p2 updated hov hul,
              ← hp, r4]

theorem reconciler_frame_witness :
    heapRead (getUpdatedPropsH [some [("a", "1")]] 0 ["a"] (some [("b", "2")])).1 0 =
      heapRead [some [("a", "1")]] 0 :=
  (reconciler_frame [some [("a", "1")]] 0 ["a"] (some [("b", "2")]) (by decide)).1

end IcebergCatalog
